import Mathlib

/-!
Verification development for the GNN-RDM repository (distributed GCN training).

The Python sources modelled here are `src/gcn_distr.py` (1D row-partitioned
ring multiplier, normalization, autograd backward) and
`src/examples/gcn_2d.py` (2D partitioning: process groups, COO splitter,
degree scaling, partition assembly).

Matrices are modelled as Mathlib matrices over `ℤ` (exact arithmetic stands
in for torch's floats in the linear-algebra claims; the float-specific
inf/NaN behaviour of the degree normalizer is modelled separately by a small
symbolic value type `FVal`).
-/

namespace GNNRDM

/-! ## Ring-communication block multiplier, `src/gcn_distr.py` lines 38-69.

`blockRow(adj_matrix, inputs, weight, rank, size)` is executed by all `size`
processes simultaneously.  Process `r` holds one row-block `A r` of the
(transposed) adjacency, pre-split into `size` column partitions
`A r 0, ..., A r (size-1)` (`am_partitions`, line 40), and starts with the
feature-matrix block `H r` (`inputs`).  Each iteration accumulates
`am_partitions[(rank + i) % size] @ inputs` (lines 47-49) and then rotates
the feature blocks around the ring: every process sends its block to
`(rank+1) % size` and receives from `rank-1` (wrapping to `size-1`),
skipping the exchange in the last iteration (lines 51-66).

We model the synchronous execution of all processes at once: `held r` is the
feature block currently held by process `r`, `z r` its accumulator. -/

/-- Feature blocks are `n × f` integer matrices; each process's adjacency row
block is pre-split into `size` square `n × n` partitions. -/
abbrev FeatBlock (n f : ℕ) := Matrix (Fin n) (Fin f) ℤ

/-- One iteration of the `for i in range(size)` loop of `blockRow`, executed
synchronously by all processes.  `A r j` is process `r`'s `am_partitions[j]`.
The accumulation uses partition `(r + i) % size` against the currently held
block (line 49); the rotation moves block `r-1`'s data to `r` (lines 54-66)
and is skipped when `i = size - 1` (lines 51-52). -/
def ringStep {n f : ℕ} (size : ℕ) (A : ℕ → ℕ → Matrix (Fin n) (Fin n) ℤ) (i : ℕ)
    (s : (ℕ → FeatBlock n f) × (ℕ → FeatBlock n f)) :
    (ℕ → FeatBlock n f) × (ℕ → FeatBlock n f) :=
  (fun r => if i = size - 1 then s.1 r else s.1 ((r + size - 1) % size),
   fun r => s.2 r + A r ((r + i) % size) * s.1 r)

/-- State after the first `k` iterations of the loop: the pair
(held feature blocks, accumulators), starting from `held = H₀`, `z = 0`. -/
def ringRun {n f : ℕ} (size : ℕ) (A : ℕ → ℕ → Matrix (Fin n) (Fin n) ℤ)
    (H₀ : ℕ → FeatBlock n f) : ℕ → (ℕ → FeatBlock n f) × (ℕ → FeatBlock n f)
  | 0 => (H₀, fun _ => 0)
  | k + 1 => ringStep size A k (ringRun size A H₀ k)

/-- The accumulated `z_loc` of process `r` when the loop finishes
(after all `size` iterations). -/
def blockRowZ {n f : ℕ} (size : ℕ) (A : ℕ → ℕ → Matrix (Fin n) (Fin n) ℤ)
    (H₀ : ℕ → FeatBlock n f) (r : ℕ) : FeatBlock n f :=
  (ringRun size A H₀ size).2 r

/-- The value returned by `blockRow` for process `r`:
`z_loc @ weight` (line 68). -/
def blockRowRet {n f g : ℕ} (size : ℕ) (A : ℕ → ℕ → Matrix (Fin n) (Fin n) ℤ)
    (H₀ : ℕ → FeatBlock n f) (W : Matrix (Fin f) (Fin g) ℤ) (r : ℕ) :
    Matrix (Fin n) (Fin g) ℤ :=
  blockRowZ size A H₀ r * W

/-- The intended result of the ring multiplier (spec §4.5 and the
commented-out reference computation at `src/gcn_distr.py` lines 81-82):
the process's full adjacency row-block times the complete, un-rotated
feature matrix — every column partition paired with its matching block. -/
def rowBlockProduct {n f : ℕ} (size : ℕ) (A : ℕ → ℕ → Matrix (Fin n) (Fin n) ℤ)
    (H₀ : ℕ → FeatBlock n f) (r : ℕ) : FeatBlock n f :=
  ∑ j ∈ Finset.range size, A r j * H₀ j

/-! ### Communication schedule of `blockRow`, lines 46-66.

In every non-terminal iteration each process performs one blocking send to
`(rank+1) % size` and one blocking receive from `rank-1` (i.e. `size-1` for
rank 0); rank 0 sends first, every other rank receives first.  In the last
iteration (`i == size - 1`) the `continue` at lines 51-52 skips the
exchange. -/

/-- A blocking point-to-point communication event. -/
inductive CommEvent where
  | send (dst : ℕ)
  | recv (src : ℕ)
  deriving DecidableEq, Repr

/-- The ordered list of communication events process `rank` performs in
iteration `i` of `blockRow`'s loop (lines 51-64): none in the terminal
iteration, otherwise a send to `(rank+1) % size` and a receive from
`rank - 1` (wrapped to `size - 1` for rank 0), with rank 0 sending first
and all other ranks receiving first. -/
def blockRowComm (rank size i : ℕ) : List CommEvent :=
  if i = size - 1 then []
  else
    let dst := (rank + 1) % size
    let src := if rank = 0 then size - 1 else rank - 1
    if rank = 0 then [CommEvent.send dst, CommEvent.recv src]
    else [CommEvent.recv src, CommEvent.send dst]

/-! ## `GCNFunc.backward`, `src/gcn_distr.py` lines 96-102.

The saved forward context is `(inputs, weight, adj_matrix)` (line 79, saved
before `blockRow` is invoked on `adj_matrix.t()`).  The backward pass
computes
  `grad_input  = torch.mm(torch.mm(adj_matrix, grad_output), weight.t())`
  `grad_weight = torch.mm(torch.mm(inputs.t(), adj_matrix), grad_output)`
and returns `None` for the two non-tensor arguments (`rank`, `size`). -/

/-- Shallow embedding of `GCNFunc.backward`: takes the saved tensors
`inputs` (`N × F`), `weight` (`F × C`), `adj_matrix` (`N × N`) and the
output gradient (`N × C`); returns the 4-tuple of gradients, with `none`
for the two non-tensor arguments. -/
def gcnBackward {N F C : ℕ} (inputs : Matrix (Fin N) (Fin F) ℤ)
    (weight : Matrix (Fin F) (Fin C) ℤ) (adj_matrix : Matrix (Fin N) (Fin N) ℤ)
    (grad_output : Matrix (Fin N) (Fin C) ℤ) :
    Matrix (Fin N) (Fin F) ℤ × Matrix (Fin F) (Fin C) ℤ × Option Unit × Option Unit :=
  ((adj_matrix * grad_output) * weight.transpose,
   (inputs.transpose * adj_matrix) * grad_output,
   none, none)

/-! ## Float values of the degree normalizers.

The degree scale factors are floats: `deg.pow(-0.5)` maps a zero degree to
`inf` and a positive degree `d` to the (generally irrational) `d^(-1/2)`.
We model the float values that actually arise symbolically: rational
literals, `d^(-1/2)` for a positive degree, `inf`, and formal products and
sums (produced by the sparse scaling products and by `coalesce`).  The
claims about the normalizers only distinguish `inf` / `0` / finite factors,
which this symbolic domain represents exactly. -/

/-- Symbolic model of the float values occurring in the degree normalizers. -/
inductive FVal where
  | q (x : ℚ)
  | invSqrt (d : ℕ)
  | inf
  | prod (a b : FVal)
  | add (a b : FVal)
  deriving DecidableEq, Repr

/-- Torch's `deg.pow(-0.5)` on a (nonnegative integer) degree: `0` maps to
`inf`, a positive degree `d` to the finite value `d^(-1/2)`. -/
def powNegHalf (d : ℕ) : FVal :=
  if d = 0 then FVal.inf else FVal.invSqrt d

/-! ## The 1D normalization path `norm`, `src/gcn_distr.py` lines 21-36.

`norm` (with the default `edge_weight = None`, so all weights are the float
`1`) first calls `add_remaining_self_loops(edge_index, edge_weight, 1,
num_nodes)`: all non-self-loop edges are kept and every node `0..num_nodes-1`
receives exactly one self-loop (a node's existing self-loop weight is kept,
otherwise the fill value `1`; with default weights every weight is `1`).
Then `deg = scatter_add(edge_weight, row, dim_size=num_nodes)` — with unit
weights this is the count of occurrences of each node among the source
indices — `deg_inv_sqrt = deg.pow(-0.5)`, and the clamp
`deg_inv_sqrt[deg_inv_sqrt == inf] = 0` (line 34). -/

/-- An edge of the COO edge list: (source, destination). -/
abbrev Edge := ℕ × ℕ

/-- `add_remaining_self_loops` with unit weights: keep all non-self-loop
edges and give every node in `[0, numNodes)` exactly one self-loop. -/
def addRemainingSelfLoops (edges : List Edge) (numNodes : ℕ) : List Edge :=
  edges.filter (fun e => e.1 ≠ e.2) ++ (List.range numNodes).map (fun i => (i, i))

/-- `scatter_add` of unit edge weights over the source indices: the number
of edges whose source is `i`. -/
def degCount (edges : List Edge) (i : ℕ) : ℕ :=
  edges.countP (fun e => e.1 = i)

/-- The clamp at line 34: `deg_inv_sqrt[deg_inv_sqrt == float('inf')] = 0`. -/
def clampInf (v : FVal) : FVal :=
  if v = FVal.inf then FVal.q 0 else v

/-- The per-vertex inverse-square-root degree scale vector computed by
`norm` (lines 28-34, default weights): self-loops are added, degrees are
counted over source indices, `pow(-0.5)` is applied and `inf` is clamped
to `0`. -/
def normScaleFactors (edges : List Edge) (numNodes : ℕ) : List FVal :=
  (List.range numNodes).map
    (fun i => clampInf (powNegHalf (degCount (addRemainingSelfLoops edges numNodes) i)))

/-! ## `torch.histc`, as used by `scale_elements` (`src/examples/gcn_2d.py`
line 118).

`torch.histc(data, bins)` with the default `min = max = 0` uses the data's
own minimum and maximum as the range, splits `[min, max]` into `bins`
equal-width bins (the last bin is right-closed), and counts.  We model this
with exact rational bin arithmetic on integer data: value `v` falls in bin
`(v - min) * bins / (max - min)` (floor), except `v = max` which falls in
the last bin.  For an empty input the result is all zeros; in the
degenerate case `min = max` torch widens the range by one on each side
(so all values land in bin `bins / 2`); no theorem below relies on the
degenerate case. -/

/-- Bin index of value `v` for range `[m, M]` with `bins` bins (`m < M`). -/
def histcBin (m M bins v : ℕ) : ℕ :=
  if v = M then bins - 1 else (v - m) * bins / (M - m)

/-- Model of `torch.histc(data, bins)` with the default data-derived range. -/
def torchHistc (data : List ℕ) (bins : ℕ) : List ℕ :=
  match data with
  | [] => List.replicate bins 0
  | d :: ds =>
    let m := ds.foldr min d
    let M := ds.foldr max d
    if m = M then
      (List.range bins).map (fun i => if i = bins / 2 then data.length else 0)
    else
      (List.range bins).map (fun i => data.countP (fun v => histcBin m M bins v = i))

/-- The degree vector computed inside `scale_elements` (line 118):
`deg = torch.histc(adj_matrix[0], bins=node_count)` over the global source
indices. -/
def degHistc (edges : List Edge) (nodeCount : ℕ) : List ℕ :=
  torchHistc (edges.map Prod.fst) nodeCount

/-- The per-vertex scale-factor vector computed inside `scale_elements`
(lines 118-119): the histogram degrees taken to the power `-0.5` — with no
clamping of `inf`. -/
def scaleFactors2d (edges : List Edge) (nodeCount : ℕ) : List FVal :=
  (degHistc edges nodeCount).map powNegHalf

/-! ## Sparse tensors and `scale_elements`, `src/examples/gcn_2d.py`
lines 112-148. -/

/-- A sparse COO tensor: a shape and a list of (row, col, value) entries. -/
structure SparseT where
  nrows : ℕ
  ncols : ℕ
  entries : List ((ℕ × ℕ) × FVal)
  deriving DecidableEq, Repr

/-- Insertion into an index-sorted entry list (lexicographic by (row, col)). -/
def insertEntry (e : (ℕ × ℕ) × FVal) :
    List ((ℕ × ℕ) × FVal) → List ((ℕ × ℕ) × FVal)
  | [] => [e]
  | x :: xs =>
    if e.1.1 < x.1.1 ∨ (e.1.1 = x.1.1 ∧ e.1.2 ≤ x.1.2) then e :: x :: xs
    else x :: insertEntry e xs

/-- Sum adjacent entries with equal indices of a sorted entry list. -/
def mergeDups : List ((ℕ × ℕ) × FVal) → List ((ℕ × ℕ) × FVal)
  | [] => []
  | [e] => [e]
  | e₁ :: e₂ :: rest =>
    if e₁.1 = e₂.1 then mergeDups ((e₁.1, FVal.add e₁.2 e₂.2) :: rest)
    else e₁ :: mergeDups (e₂ :: rest)
termination_by l => l.length
decreasing_by all_goals simp

/-- Torch's `Tensor.coalesce()` on a sparse COO tensor: sort the entries by
index and sum duplicates. -/
def coalesce (t : SparseT) : SparseT :=
  ⟨t.nrows, t.ncols, mergeDups (t.entries.foldr insertEntry [])⟩

/-- Shallow embedding of `scale_elements(adj_matrix, adj_part, node_count,
row_vtx, col_vtx, normalization)` (lines 113-148).  If `normalization` is
false the partition is returned unchanged (lines 114-115).  Otherwise the
partition is coalesced, the degree vector is computed by `torch.histc` over
the global source indices and taken to the power `-0.5` (lines 117-119,
with no `inf` clamp), and the two `torch_sparse.spspmm` products with the
diagonal matrices `dleft = diag(deg_inv_sqrt[row_vtx:row_vtx+rows])` and
`dright = diag(deg_inv_sqrt[col_vtx:col_vtx+cols])` scale each entry
`(r, c)` by `deg_inv_sqrt[row_vtx+r]` on the left and
`deg_inv_sqrt[col_vtx+c]` on the right (lines 124-146). -/
def scaleElements (adj_matrix : List Edge) (adj_part : SparseT) (node_count : ℕ)
    (row_vtx col_vtx : ℕ) (normalization : Bool) : SparseT :=
  if !normalization then adj_part
  else
    let part := coalesce adj_part
    let factor := fun i => (scaleFactors2d adj_matrix node_count).getD i (FVal.q 0)
    ⟨part.nrows, part.ncols,
     part.entries.map (fun e =>
       (e.1, FVal.prod (factor (row_vtx + e.1.1))
               (FVal.prod e.2 (factor (col_vtx + e.1.2)))))⟩

/-! ## Process-grid factorization.

`gcn_2d.py` obtains the grid shape from `cagnet.nn.functional`
(`CAGF.proc_row_size` / `CAGF.proc_col_size`), which is not part of this
repository's sources. -/

/-- Modelled from the spec: `CAGF.proc_row_size` is missing from the
sources; spec §4.1 requires `P_row * P_col == size` with `P_row <= P_col`
and both as close to `sqrt(size)` as possible.  We take `P_row` to be the
largest divisor of `size` that is at most `sqrt(size)`. -/
def procRowSize (size : ℕ) : ℕ :=
  ((List.range (size + 1)).filter (fun d => size % d = 0 && d * d ≤ size)).foldr max 1

/-- Modelled from the spec: `CAGF.proc_col_size` is missing from the
sources; with `P_row` a divisor of `size`, `P_col = size / P_row`, so that
`P_row * P_col == size` and `P_row <= P_col`. -/
def procColSize (size : ℕ) : ℕ :=
  size / procRowSize size

/-! ## The COO splitter `split_coo`, `src/examples/gcn_2d.py` lines 150-167. -/

/-- Python's `range(0, stop, step)` for a positive step. -/
def pyRange0 (stop step : ℕ) : List ℕ :=
  List.range' 0 ((stop + step - 1) / step) step

/-- The boundary list of `split_coo` (lines 156-158):
`vtx_indices = list(range(0, node_count, n_per_proc))[:proc_row]` with
`node_count` appended.  Python's `range` raises `ValueError` on a zero
step, modelled as `none`. -/
def vtxIndicesCore (node_count n_per_proc proc_row : ℕ) : Option (List ℕ) :=
  if n_per_proc = 0 then none
  else some (((pyRange0 node_count n_per_proc).take proc_row) ++ [node_count])

/-- The coordinate of an edge along dimension `dim` (`0` = source row,
otherwise destination column), i.e. `adj_matrix[dim, :]`. -/
def coordAt (dim : ℕ) (e : Edge) : ℕ :=
  if dim = 0 then e.1 else e.2

/-- Rebase the `dim` coordinate of an edge by subtracting the partition's
lower boundary (`am_part[dim] -= vtx_indices[i]`, line 164). -/
def rebase (dim lo : ℕ) (e : Edge) : Edge :=
  if dim = 0 then (e.1 - lo, e.2) else (e.1, e.2 - lo)

/-- Add the lower boundary back to the `dim` coordinate (the inverse of
`rebase` for edges inside the partition). -/
def unrebase (dim lo : ℕ) (e : Edge) : Edge :=
  if dim = 0 then (e.1 + lo, e.2) else (e.1, e.2 + lo)

/-- Partition `i` of `split_coo` (lines 161-165): keep the edges whose
`dim` coordinate is in `[vtx_indices[i], vtx_indices[i+1])` (two successive
boolean-mask selections) and rebase that coordinate. -/
def splitCooPart (edges : List Edge) (dim : ℕ) (vtx : List ℕ) (i : ℕ) : List Edge :=
  (((edges.filter (fun e => vtx.getD i 0 ≤ coordAt dim e)).filter
      (fun e => coordAt dim e < vtx.getD (i + 1) 0)).map
    (rebase dim (vtx.getD i 0)))

/-- The partition list of `split_coo` (the loop at lines 160-165): one
partition per boundary interval. -/
def splitParts (edges : List Edge) (dim : ℕ) (vtx : List ℕ) : List (List Edge) :=
  (List.range (vtx.length - 1)).map (splitCooPart edges dim vtx)

/-- Shallow embedding of `split_coo(adj_matrix, node_count, n_per_proc,
dim, size)` (lines 152-167): the boundary list is truncated to
`proc_row = CAGF.proc_row_size(size)` entries before `node_count` is
appended, and one partition is produced per boundary interval.  `none`
models the `ValueError` Python raises when `n_per_proc` is `0`. -/
def splitCoo (edges : List Edge) (node_count n_per_proc dim size : ℕ) :
    Option (List (List Edge) × List ℕ) :=
  (vtxIndicesCore node_count n_per_proc (procRowSize size)).map
    (fun vtx => (splitParts edges dim vtx, vtx))

/-- Partition `i` reconstituted: the rebased `dim` coordinates are shifted
back by `boundary[i]`. -/
def reconPart (parts : List (List Edge)) (vtx : List ℕ) (dim i : ℕ) : List Edge :=
  (parts.getD i []).map (unrebase dim (vtx.getD i 0))

/-- All partitions reconstituted and concatenated. -/
def reconJoin (parts : List (List Edge)) (vtx : List ℕ) (dim : ℕ) : List Edge :=
  ((List.range parts.length).map (reconPart parts vtx dim)).flatten

/-! ## The 2D partition assembler `twod_partition`,
`src/examples/gcn_2d.py` lines 169-235 (the local-adjacency computation,
lines 177-208 and 230).

The code first column-splits the global COO adjacency with
`split_coo(adj_matrix, node_count, n_per_proc, 1, size)` (line 189), indexes
the resulting list with `rank_col` (line 192), row-splits that partition
(line 192), converts each piece to a sparse tensor of shape
`(n_per_proc, proc_node_count)` — the last piece of shape
`(last_node_count, proc_node_count)` — and normalizes it with
`scale_elements` (lines 193-208); the local block is `am_pbyp[rank_row]`
(line 230).  Python list indexing out of range (`IndexError`) is modelled
as `none`. -/

/-- The per-piece sparse-tensor construction and normalization of the loop
at lines 193-208, applied to the row-split pieces. -/
def buildScaledPieces (edges : List Edge) (node_count proc_row n_per_proc
    proc_node_count col_vtx : ℕ) (vtx : List ℕ) (amPbyp : List (List Edge))
    (normalize : Bool) : List SparseT :=
  (List.range amPbyp.length).map (fun i =>
    let rows := if i = proc_row - 1 then vtx.getD (i + 1) 0 - vtx.getD i 0
                else n_per_proc
    scaleElements edges
      ⟨rows, proc_node_count, (amPbyp.getD i []).map (fun e => (e, FVal.q 1))⟩
      node_count (vtx.getD i 0) col_vtx normalize)

/-- Shallow embedding of the local-adjacency-block computation of
`twod_partition(rank, size, ...)` (lines 169-208, 230): column-split,
select column partition `rank_col`, row-split, build and normalize the
sparse pieces, select piece `rank_row`.  `none` models Python exceptions
(`ValueError` from a zero split step, `IndexError` from out-of-range list
indexing). -/
def twodPartitionAdj (rank size : ℕ) (edges : List Edge) (node_count : ℕ)
    (normalize : Bool) : Option SparseT :=
  let proc_row := procRowSize size
  let proc_col := procColSize size
  let n_per_proc := node_count / proc_row
  let rank_row := rank / proc_col
  let rank_col := rank % proc_col
  (splitCoo edges node_count n_per_proc 1 size).bind (fun cs =>
    (cs.1.get? rank_col).bind (fun colPart =>
      let vtx := cs.2
      let proc_node_count := vtx.getD (rank_col + 1) 0 - vtx.getD rank_col 0
      (splitCoo colPart node_count n_per_proc 0 size).bind (fun rs =>
        (buildScaledPieces edges node_count proc_row n_per_proc
            proc_node_count (vtx.getD rank_col 0) vtx rs.1 normalize).get? rank_row)))

/-- Modelled from the spec: the adjacency-block selection exactly as spec
§4.4 words it — "its local adjacency block = entry `(rank_row)` of the list
obtained by first column-splitting the global adjacency into P_col blocks
(selecting column-block `rank_col`) and then row-splitting that block into
P_row pieces (selecting row-block `rank_row`), each piece normalized" —
i.e. the first (column) split produces `P_col` near-equal blocks and the
second (row) split `P_row` pieces. -/
def specAdjSelect (rank size : ℕ) (edges : List Edge) (node_count : ℕ)
    (normalize : Bool) : Option SparseT :=
  let proc_row := procRowSize size
  let proc_col := procColSize size
  let rank_row := rank / proc_col
  let rank_col := rank % proc_col
  (vtxIndicesCore node_count (node_count / proc_col) proc_col).bind (fun cvtx =>
    ((splitParts edges 1 cvtx).get? rank_col).bind (fun colPart =>
      let proc_node_count := cvtx.getD (rank_col + 1) 0 - cvtx.getD rank_col 0
      (vtxIndicesCore node_count (node_count / proc_row) proc_row).bind (fun rvtx =>
        (buildScaledPieces edges node_count proc_row (node_count / proc_row)
            proc_node_count (cvtx.getD rank_col 0) rvtx
            (splitParts colPart 0 rvtx) normalize).get? rank_row)))

/-! ## Process topology builder `get_proc_groups`,
`src/examples/gcn_2d.py` lines 66-110.

Groups are modelled as the rank lists passed to `dist.new_group`. -/

/-- Python's `range(start, stop, step)` for a positive step. -/
def pyRange (start stop step : ℕ) : List ℕ :=
  List.range' start ((stop - start + step - 1) / step) step

/-- The row groups (lines 76-77): for each grid row `i`, the ranks
`[i*proc_col, i*proc_col + proc_col)`. -/
def rowGroupsOf (size : ℕ) : List (List ℕ) :=
  let proc_col := procColSize size
  (List.range (procRowSize size)).map
    (fun i => pyRange (i * proc_col) (i * proc_col + proc_col) 1)

/-- The column groups (lines 80-81): for each grid column `i`, the ranks
`range(i, size, proc_row)`. -/
def colGroupsOf (size : ℕ) : List (List ℕ) :=
  (List.range (procColSize size)).map (fun i => pyRange i size (procRowSize size))

/-- The transpose-group table (lines 92-103): cell `(i, j)` holds the
pairwise group `[i*proc_col + j, j*proc_row + i]` when
`i*proc_col + j < j*proc_row + i`, and `None` otherwise. -/
def transposeTable (size : ℕ) : List (List (Option (List ℕ))) :=
  let proc_row := procRowSize size
  let proc_col := procColSize size
  (List.range proc_row).map (fun i =>
    (List.range proc_col).map (fun j =>
      let local_rank := i * proc_col + j
      let local_rank_t := j * proc_row + i
      if local_rank < local_rank_t then some [local_rank, local_rank_t]
      else none))

/-- Cell lookup in the transpose-group table (out-of-range indices yield
`none`; Python would raise `IndexError` there, a path no claim relies on). -/
def transposeCell (size i j : ℕ) : Option (List ℕ) :=
  ((transposeTable size).getD i []).getD j none

/-- Shallow embedding of `get_proc_groups(rank, size)` (lines 66-110):
builds the row and column groups, returns early with no groups (`none`,
Python's bare `return`, lines 89-90) when the calling rank's grid
coordinates fall outside the grid, and otherwise selects the calling
rank's transpose group from the table (lines 105-108). -/
def getProcGroups (rank size : ℕ) :
    Option (List (List ℕ) × List (List ℕ) × Option (List ℕ)) :=
  let proc_row := procRowSize size
  let proc_col := procColSize size
  let rank_row := rank / proc_col
  let rank_col := rank % proc_col
  let rank_t := rank_col * proc_row + rank_row
  if proc_row ≤ rank_row ∨ proc_col ≤ rank_col then none
  else
    some (rowGroupsOf size, colGroupsOf size,
      if rank < rank_t then transposeCell size rank_row rank_col
      else transposeCell size rank_col rank_row)

/-! ## Concrete inputs used by the counterexample and code-bug theorems. -/

/-- A 3-process adjacency for the ring multiplier: every process's row
block has its only nonzero (a `1`) in column partition `1`
(`1 × 1` blocks, so `n_per_proc = 1`). -/
def adjC1 : ℕ → ℕ → Matrix (Fin 1) (Fin 1) ℤ :=
  fun _ j => !![if j = 1 then 1 else 0]

/-- Distinguishable feature blocks for the ring multiplier: block `j`
holds the value `10 * (j + 1)`, so blocks `0, 1, 2` hold `10, 20, 30`. -/
def featC1 : ℕ → FeatBlock 1 1 :=
  fun j => !![10 * ((j : ℤ) + 1)]

/-- A 3-node graph whose vertex `1` is isolated (degree 0): a self-loop on
vertex `0` and an edge from vertex `2` to vertex `1`. -/
def edgesC3 : List Edge := [(0, 0), (2, 1)]

/-- An asymmetric saved adjacency for the backward pass. -/
def amC2 : Matrix (Fin 2) (Fin 2) ℤ := !![0, 1; 0, 0]

/-- The `2 × 2` identity, used as inputs, weight and output gradient. -/
def idC2 : Matrix (Fin 2) (Fin 2) ℤ := !![1, 0; 0, 1]

/-- The Bool predicate "coordinate `c` lies in boundary interval `i`". -/
def inIvB (vtx : List ℕ) (i c : ℕ) : Bool :=
  decide (vtx.getD i 0 ≤ c) && decide (c < vtx.getD (i + 1) 0)

/-! ## Helper lemmas -/

theorem getD_map_range {α : Type} {n i : ℕ} (f : ℕ → α) (d : α) (h : i < n) :
    ((List.range n).map f).getD i d = f i := by
  rw [List.getD_eq_getElem _ _ (by simpa using h)]
  simp

theorem one_le_foldr_max (l : List ℕ) : 1 ≤ l.foldr max 1 := by
  induction l with
  | nil => exact le_refl 1
  | cons x xs ih => exact le_trans ih (le_max_right x _)

theorem procRowSize_pos (size : ℕ) : 0 < procRowSize size :=
  one_le_foldr_max _

theorem take_range' (step : ℕ) :
    ∀ (n m s : ℕ), (List.range' s n step).take m = List.range' s (min m n) step := by
  intro n
  induction n with
  | zero => intro m s; simp
  | succ n ih =>
    intro m s
    cases m with
    | zero => simp
    | succ m =>
      rw [List.range'_succ, List.take_succ_cons, ih, Nat.succ_min_succ, List.range'_succ]

theorem pyRange0_nil (s : ℕ) (hs : 0 < s) : pyRange0 0 s = [] := by
  unfold pyRange0
  rw [Nat.div_eq_of_lt (by omega)]
  rfl

theorem mem_pyRange0_lt {N s x : ℕ} (hs : 0 < s) (hx : x ∈ pyRange0 N s) : x < N := by
  unfold pyRange0 at hx
  rw [List.mem_range'] at hx
  obtain ⟨i, hik, rfl⟩ := hx
  have h1 : s * (i + 1) ≤ s * ((N + s - 1) / s) := Nat.mul_le_mul_left _ (by omega)
  rw [Nat.mul_succ] at h1
  have h2 : (N + s - 1) / s * s ≤ N + s - 1 := Nat.div_mul_le_self _ _
  have h3 : s * ((N + s - 1) / s) = (N + s - 1) / s * s := Nat.mul_comm _ _
  omega

theorem vtx_elems_lt (N s pr : ℕ) (hs : 0 < s) :
    ∀ x ∈ (pyRange0 N s).take pr, x < N := by
  intro x hx
  exact mem_pyRange0_lt hs (List.take_subset pr _ hx)

theorem vtx_pairwise (N s pr : ℕ) (hs : 0 < s) :
    ((pyRange0 N s).take pr ++ [N]).Pairwise (· < ·) := by
  rw [List.pairwise_append]
  refine ⟨?_, by simp, ?_⟩
  · exact List.Pairwise.sublist (List.take_sublist pr _)
      (by unfold pyRange0; exact List.pairwise_lt_range' 0 _ s hs)
  · intro a ha b hb
    simp only [List.mem_singleton] at hb
    have := vtx_elems_lt N s pr hs a ha
    omega

theorem vtx_head (N s pr : ℕ) (hs : 0 < s) (hpr : 0 < pr) :
    (((pyRange0 N s).take pr) ++ [N]).getD 0 0 = 0 := by
  rcases Nat.eq_zero_or_pos N with h | h
  · subst h
    rw [pyRange0_nil s hs]
    simp
  · have hk : 0 < (N + s - 1) / s := (Nat.le_div_iff_mul_le hs).mpr (by omega)
    obtain ⟨k, hk'⟩ : ∃ k, (N + s - 1) / s = k + 1 :=
      ⟨((N + s - 1) / s) - 1, by omega⟩
    unfold pyRange0
    rw [hk', List.range'_succ]
    obtain ⟨pr', rfl⟩ : ∃ pr', pr = pr' + 1 := ⟨pr - 1, by omega⟩
    rw [List.take_succ_cons]
    rfl

theorem interval_exists :
    ∀ (b : List ℕ) (c L : ℕ), b.getD 0 0 ≤ c → b.getLast? = some L → c < L →
      ∃ i, i + 1 < b.length ∧ b.getD i 0 ≤ c ∧ c < b.getD (i + 1) 0 := by
  intro b
  induction b with
  | nil => intro c L _ hL _; simp at hL
  | cons x rest ih =>
    intro c L h0 hL hc
    cases rest with
    | nil =>
      simp only [List.getLast?_singleton, Option.some.injEq] at hL
      simp only [List.getD_cons_zero] at h0
      omega
    | cons y rest' =>
      by_cases hy : c < y
      · exact ⟨0, by simp, by simpa using h0, by simpa using hy⟩
      · rw [List.getLast?_cons_cons] at hL
        obtain ⟨i, hlen, hlo, hhi⟩ :=
          ih c L (by simpa using Nat.le_of_not_lt hy) hL hc
        refine ⟨i + 1, ?_, ?_, ?_⟩
        · simp only [List.length_cons] at hlen ⊢; omega
        · rw [List.getD_cons_succ]; exact hlo
        · rw [List.getD_cons_succ]; exact hhi

theorem interval_unique {b : List ℕ} (hp : b.Pairwise (· ≤ ·)) {c i j : ℕ}
    (hi : i + 1 < b.length) (hj : j + 1 < b.length)
    (h1 : b.getD i 0 ≤ c) (h2 : c < b.getD (i + 1) 0)
    (h3 : b.getD j 0 ≤ c) (h4 : c < b.getD (j + 1) 0) : i = j := by
  have key : ∀ p q : ℕ, p ≤ q → q < b.length → b.getD p 0 ≤ b.getD q 0 := by
    intro p q hpq hq
    rcases Nat.eq_or_lt_of_le hpq with he | hl
    · rw [he]
    · rw [List.getD_eq_getElem _ _ (by omega), List.getD_eq_getElem _ _ hq]
      exact List.pairwise_iff_getElem.mp hp _ _ _ _ hl
  by_contra hne
  rcases Nat.lt_or_ge i j with h | h
  · have := key (i + 1) j (by omega) (by omega)
    omega
  · have hj' : j < i := by omega
    have := key (j + 1) i (by omega) (by omega)
    omega

theorem unrebase_rebase (dim lo : ℕ) (e : Edge) (h : lo ≤ coordAt dim e) :
    unrebase dim lo (rebase dim lo e) = e := by
  unfold unrebase rebase coordAt at *
  by_cases hd : dim = 0
  · simp only [hd, if_pos rfl] at h ⊢
    exact Prod.ext (Nat.sub_add_cancel h) rfl
  · simp only [if_neg hd] at h ⊢
    exact Prod.ext rfl (Nat.sub_add_cancel h)

theorem reconPart_eq_filter (edges : List Edge) (dim : ℕ) (vtx : List ℕ) {i : ℕ}
    (hi : i < vtx.length - 1) :
    reconPart (splitParts edges dim vtx) vtx dim i =
      edges.filter (fun e => inIvB vtx i (coordAt dim e)) := by
  unfold reconPart splitParts
  rw [getD_map_range _ _ hi]
  unfold splitCooPart
  rw [List.filter_filter, List.map_map]
  have h1 : ∀ e ∈ edges.filter (fun e =>
      (decide (coordAt dim e < vtx.getD (i + 1) 0) &&
        decide (vtx.getD i 0 ≤ coordAt dim e))),
      (unrebase dim (vtx.getD i 0) ∘ rebase dim (vtx.getD i 0)) e = id e := by
    intro e he
    rw [List.mem_filter] at he
    have := he.2
    simp only [Bool.and_eq_true, decide_eq_true_eq] at this
    exact unrebase_rebase dim _ e this.2
  rw [List.map_congr_left h1, List.map_id]
  apply List.filter_congr
  intro e _
  unfold inIvB
  rw [Bool.and_comm]

theorem range_getD_pairs {α : Type} (f : ℕ → ℕ → α) :
    ∀ (b : List ℕ),
      (List.range (b.length - 1)).map (fun i => f (b.getD i 0) (b.getD (i + 1) 0)) =
        (b.zip b.tail).map (fun p => f p.1 p.2) := by
  intro b
  induction b with
  | nil => simp
  | cons x rest ih =>
    cases rest with
    | nil => simp
    | cons y rest' =>
      have hlen : (x :: y :: rest').length - 1 = ((y :: rest').length - 1) + 1 := by
        simp
      rw [hlen, List.range_succ_eq_map, List.map_cons, List.map_map]
      rw [List.tail_cons, List.zip_cons_cons, List.map_cons]
      rw [List.tail_cons] at ih
      refine congrArg₂ _ (by simp) ?_
      rw [← ih]
      apply List.map_congr_left
      intro a _
      simp [Nat.succ_eq_add_one, List.getD_cons_succ]

theorem head_le_getLast? {y L : ℕ} {rest : List ℕ}
    (hp : (y :: rest).Pairwise (· ≤ ·)) (hL : (y :: rest).getLast? = some L) :
    y ≤ L := by
  have hne : (y :: rest) ≠ [] := by simp
  rw [List.getLast?_eq_getLast _ hne, Option.some.injEq] at hL
  have hmem : L ∈ y :: rest := hL ▸ List.getLast_mem hne
  rcases List.mem_cons.mp hmem with h | h
  · omega
  · exact List.rel_of_pairwise_cons hp h

theorem joinIv_perm (g : Edge → ℕ) :
    ∀ (rest : List ℕ) (x L : ℕ) (l : List Edge),
      (x :: rest).Pairwise (· ≤ ·) → (x :: rest).getLast? = some L →
      ((((x :: rest).zip rest).map
          (fun p => l.filter (fun e => decide (p.1 ≤ g e) && decide (g e < p.2)))).flatten).Perm
        (l.filter (fun e => decide (x ≤ g e) && decide (g e < L))) := by
  intro rest
  induction rest with
  | nil =>
    intro x L l _ hL
    simp only [List.getLast?_singleton, Option.some.injEq] at hL
    subst hL
    have : l.filter (fun e => decide (x ≤ g e) && decide (g e < x)) = [] := by
      rw [List.filter_eq_nil_iff]
      intro a _
      simp only [Bool.and_eq_true, decide_eq_true_eq, not_and]
      omega
    simp [this]
  | cons y rest' ih =>
    intro x L l hp hL
    rw [List.getLast?_cons_cons] at hL
    have hsub : (y :: rest').Sublist (x :: y :: rest') :=
      List.sublist_cons_self x (y :: rest')
    have hxy : x ≤ y :=
      List.rel_of_pairwise_cons hp (List.mem_cons_self y rest')
    have hyL : y ≤ L := head_le_getLast? (List.Pairwise.sublist hsub hp) hL
    rw [List.zip_cons_cons, List.map_cons, List.flatten_cons]
    have hperm := ih y L l (List.Pairwise.sublist hsub hp) hL
    refine List.Perm.trans (List.Perm.append_left _ hperm) ?_
    have key := List.filter_append_perm (fun e => decide (g e < y))
      (l.filter (fun e => decide (x ≤ g e) && decide (g e < L)))
    rw [List.filter_filter, List.filter_filter] at key
    have e1 : l.filter (fun a =>
        decide (g a < y) && (decide (x ≤ g a) && decide (g a < L))) =
        l.filter (fun e => decide (x ≤ g e) && decide (g e < y)) := by
      apply List.filter_congr
      intro e _
      rcases Nat.lt_or_ge (g e) y with h1 | h1
      · simp [h1, show g e < L from lt_of_lt_of_le h1 hyL]
      · simp [show ¬ g e < y from by omega]
    have e2 : l.filter (fun a =>
        (!decide (g a < y)) && (decide (x ≤ g a) && decide (g a < L))) =
        l.filter (fun e => decide (y ≤ g e) && decide (g e < L)) := by
      apply List.filter_congr
      intro e _
      rcases Nat.lt_or_ge (g e) y with h1 | h1
      · simp [h1, show ¬ y ≤ g e from by omega]
      · simp [show ¬ g e < y from by omega, show y ≤ g e from h1,
          show x ≤ g e from le_trans hxy h1]
    rw [e1, e2] at key
    exact key

theorem vtxIndicesCore_eq (N s pr : ℕ) (hs : 0 < s) (hpr : pr ≤ (N + s - 1) / s) :
    vtxIndicesCore N s pr = some (List.range' 0 pr s ++ [N]) := by
  unfold vtxIndicesCore pyRange0
  rw [if_neg (by omega), take_range', min_eq_left hpr]

theorem splitParts_length (edges : List Edge) (dim : ℕ) (vtx : List ℕ) :
    (splitParts edges dim vtx).length = vtx.length - 1 := by
  unfold splitParts
  rw [List.length_map, List.length_range]

theorem partition_core (edges : List Edge) (dim N : ℕ) (vtx : List ℕ)
    (hpw : vtx.Pairwise (· < ·)) (hhead : vtx.getD 0 0 = 0)
    (hlast : vtx.getLast? = some N) (hb : ∀ e ∈ edges, coordAt dim e < N) :
    (∀ e ∈ edges, ∃! i, i < (splitParts edges dim vtx).length ∧
        vtx.getD i 0 ≤ coordAt dim e ∧ coordAt dim e < vtx.getD (i + 1) 0 ∧
        e ∈ reconPart (splitParts edges dim vtx) vtx dim i) ∧
    (∀ i j, i < (splitParts edges dim vtx).length →
        j < (splitParts edges dim vtx).length → i ≠ j →
        ∀ e, e ∈ reconPart (splitParts edges dim vtx) vtx dim i →
          e ∉ reconPart (splitParts edges dim vtx) vtx dim j) ∧
    (reconJoin (splitParts edges dim vtx) vtx dim).Perm edges := by
  have hple : vtx.Pairwise (· ≤ ·) := hpw.imp le_of_lt
  have hplen : (splitParts edges dim vtx).length = vtx.length - 1 :=
    splitParts_length edges dim vtx
  have hvne : vtx ≠ [] := by
    intro h
    rw [h] at hlast
    simp at hlast
  refine ⟨?_, ?_, ?_⟩
  · intro e he
    have hc : coordAt dim e < N := hb e he
    obtain ⟨i, hilen, hlo, hhi⟩ :=
      interval_exists vtx (coordAt dim e) N (by rw [hhead]; exact Nat.zero_le _) hlast hc
    refine ⟨i, ⟨by omega, hlo, hhi, ?_⟩, ?_⟩
    · rw [reconPart_eq_filter edges dim vtx (by omega), List.mem_filter]
      refine ⟨he, ?_⟩
      unfold inIvB
      simp only [Bool.and_eq_true, decide_eq_true_eq]
      exact ⟨hlo, hhi⟩
    · rintro j ⟨hj, hjlo, hjhi, -⟩
      exact interval_unique hple (by omega) (by omega) hjlo hjhi hlo hhi
  · intro i j hi hj hne e hei hej
    rw [reconPart_eq_filter edges dim vtx (by omega), List.mem_filter] at hei hej
    have h1 := hei.2
    have h2 := hej.2
    unfold inIvB at h1 h2
    simp only [Bool.and_eq_true, decide_eq_true_eq] at h1 h2
    exact hne (interval_unique hple (by omega) (by omega) h1.1 h1.2 h2.1 h2.2)
  · unfold reconJoin
    rw [hplen]
    rw [List.map_congr_left
      (fun i hi => reconPart_eq_filter edges dim vtx (List.mem_range.mp hi))]
    have hbridge := range_getD_pairs
      (fun lo hi => edges.filter
        (fun e => decide (lo ≤ coordAt dim e) && decide (coordAt dim e < hi))) vtx
    have hbridge' : (List.range (vtx.length - 1)).map
        (fun i => edges.filter (fun e => inIvB vtx i (coordAt dim e))) =
        (vtx.zip vtx.tail).map (fun p => edges.filter
          (fun e => decide (p.1 ≤ coordAt dim e) && decide (coordAt dim e < p.2))) := by
      rw [← hbridge]
      apply List.map_congr_left
      intro i _
      apply List.filter_congr
      intro e _
      unfold inIvB
      rfl
    rw [hbridge']
    cases vtx with
    | nil => exact absurd rfl hvne
    | cons x rest =>
      rw [List.getD_cons_zero] at hhead
      subst hhead
      rw [List.tail_cons]
      have hp := joinIv_perm (coordAt dim) rest 0 N edges hple hlast
      have hfe : edges.filter
          (fun e => decide (0 ≤ coordAt dim e) && decide (coordAt dim e < N)) = edges := by
        rw [List.filter_eq_self]
        intro e he
        simp [hb e he]
      rw [hfe] at hp
      exact hp

theorem mul_add_lt_of_lt {i j p : ℕ} (hij : i < j) (hjp : j < p) :
    i * p + j < j * p + i := by
  have h1 : (i + 1) * p ≤ j * p := Nat.mul_le_mul_right p (by omega)
  rw [Nat.add_mul, Nat.one_mul] at h1
  omega

theorem transposeCell_eq (size i j : ℕ) (hi : i < procRowSize size)
    (hj : j < procColSize size) :
    transposeCell size i j =
      (if i * procColSize size + j < j * procRowSize size + i then
        some [i * procColSize size + j, j * procRowSize size + i]
      else none) := by
  simp only [transposeCell, transposeTable]
  rw [getD_map_range _ _ hi, getD_map_range _ _ hj]

/-! ## Claim theorems -/

/-- C1 (code bug): for `size = 3` the ring multiplier's accumulated
`z_loc` does not equal the full row-block product.  Process `0`'s row
block has its only `1` in column partition `1`, so the correct product is
`20` (feature block `1`), but the code pairs adjacency partition
`(rank + i) % size` with the feature block received after `i` rotations,
which is block `(rank - i) % size`, and accumulates `30` (feature block
`2`) instead. -/
theorem blockRow_wrong_pairing :
    (blockRowZ 3 adjC1 featC1 0) 0 0 = 30 ∧
    (rowBlockProduct 3 adjC1 featC1 0) 0 0 = 20 ∧
    blockRowZ 3 adjC1 featC1 0 ≠ rowBlockProduct 3 adjC1 featC1 0 := by
  refine ⟨by decide, by decide, fun h => ?_⟩
  have h00 := congrFun (congrFun h 0) 0
  rw [show (blockRowZ 3 adjC1 featC1 0) 0 0 = 30 from by decide,
      show (rowBlockProduct 3 adjC1 featC1 0) 0 0 = 20 from by decide] at h00
  exact absurd h00 (by decide)

/-- C2 (amended): `GCNFunc.backward` returns input-gradient
`adj_matrix × grad_output × weightᵀ` (the saved adjacency, un-transposed)
and weight-gradient `inputsᵀ × adj_matrix × grad_output`, with `None` for
the two non-tensor arguments. -/
theorem gcnBackward_formula {N F C : ℕ} (inputs : Matrix (Fin N) (Fin F) ℤ)
    (weight : Matrix (Fin F) (Fin C) ℤ) (adj_matrix : Matrix (Fin N) (Fin N) ℤ)
    (grad_output : Matrix (Fin N) (Fin C) ℤ) :
    gcnBackward inputs weight adj_matrix grad_output =
      (adj_matrix * grad_output * weight.transpose,
       inputs.transpose * adj_matrix * grad_output, none, none) := rfl

/-- C2 counterexample: with the asymmetric saved adjacency
`A = [[0,1],[0,0]]` and identity `inputs`, `weight`, `grad_output`, the
input-gradient returned by `GCNFunc.backward` is `A`, not
`Aᵀ × grad_output × weightᵀ = Aᵀ` as the claim states. -/
theorem gcnBackward_not_transposed :
    (gcnBackward idC2 idC2 amC2 idC2).1 ≠
      amC2.transpose * idC2 * idC2.transpose := by
  intro h
  have h01 := congrFun (congrFun h 0) 1
  have hL : (gcnBackward idC2 idC2 amC2 idC2).1 0 1 = (1 : ℤ) := by decide
  have hR : (amC2.transpose * idC2 * idC2.transpose) 0 1 = (0 : ℤ) := by decide
  rw [hL, hR] at h01
  exact absurd h01 (by decide)

/-- C3 (code bug): on a graph whose vertex `1` is isolated, the 2D path's
scale factor for vertex `1` is `inf` (`deg.pow(-0.5)` with no clamp),
while the 1D path `norm` first adds self-loops, so the vertex's factor is
`1^(-1/2) = 1`; neither path computes the claimed `0`. -/
theorem degree_zero_scale_factors :
    scaleFactors2d edgesC3 3 = [FVal.invSqrt 1, FVal.inf, FVal.invSqrt 1] ∧
    normScaleFactors edgesC3 3 =
      [FVal.invSqrt 1, FVal.invSqrt 1, FVal.invSqrt 2] := by
  exact ⟨rfl, rfl⟩

/-- C4: every edge lands in exactly one `split_coo` partition (the one
whose boundary interval contains its coordinate along the split
dimension), the reconstituted partitions are pairwise disjoint, the last
boundary is `node_count` (the final partition absorbs any remainder), and
the reconstituted partitions joined together are a permutation of the
original edge list. -/
theorem splitCoo_partition_correct (edges : List Edge)
    (node_count n_per_proc dim size : ℕ) (hnp : 0 < n_per_proc)
    (hb : ∀ e ∈ edges, coordAt dim e < node_count) :
    ∃ parts vtx, splitCoo edges node_count n_per_proc dim size = some (parts, vtx) ∧
      vtx.getLast? = some node_count ∧
      (∀ e ∈ edges, ∃! i, i < parts.length ∧
        vtx.getD i 0 ≤ coordAt dim e ∧ coordAt dim e < vtx.getD (i + 1) 0 ∧
        e ∈ reconPart parts vtx dim i) ∧
      (∀ i j, i < parts.length → j < parts.length → i ≠ j →
        ∀ e, e ∈ reconPart parts vtx dim i → e ∉ reconPart parts vtx dim j) ∧
      (reconJoin parts vtx dim).Perm edges := by
  have hvtx : vtxIndicesCore node_count n_per_proc (procRowSize size) =
      some ((pyRange0 node_count n_per_proc).take (procRowSize size) ++ [node_count]) := by
    unfold vtxIndicesCore
    rw [if_neg (by omega)]
  refine ⟨splitParts edges dim
      ((pyRange0 node_count n_per_proc).take (procRowSize size) ++ [node_count]),
    (pyRange0 node_count n_per_proc).take (procRowSize size) ++ [node_count],
    ?_, List.getLast?_concat _, ?_⟩
  · unfold splitCoo
    rw [hvtx]
    rfl
  · exact partition_core edges dim node_count _
      (vtx_pairwise _ _ _ hnp)
      (vtx_head _ _ _ hnp (procRowSize_pos size))
      (List.getLast?_concat _) hb

/-- C4 witness: a concrete 4-node edge list split along the column
dimension into two partitions. -/
theorem splitCoo_partition_correct_witness :
    ∃ parts vtx,
      splitCoo [(0, 1), (1, 0), (2, 3), (3, 2)] 4 2 1 4 = some (parts, vtx) ∧
      vtx.getLast? = some 4 ∧
      (∀ e ∈ [((0 : ℕ), (1 : ℕ)), (1, 0), (2, 3), (3, 2)], ∃! i, i < parts.length ∧
        vtx.getD i 0 ≤ coordAt 1 e ∧ coordAt 1 e < vtx.getD (i + 1) 0 ∧
        e ∈ reconPart parts vtx 1 i) ∧
      (∀ i j, i < parts.length → j < parts.length → i ≠ j →
        ∀ e, e ∈ reconPart parts vtx 1 i → e ∉ reconPart parts vtx 1 j) ∧
      (reconJoin parts vtx 1).Perm [(0, 1), (1, 0), (2, 3), (3, 2)] :=
  splitCoo_partition_correct [(0, 1), (1, 0), (2, 3), (3, 2)] 4 2 1 4
    (by decide) (by decide)

/-- C5 (amended): on a square process grid (`P_row = P_col`), the local
adjacency block selected by `twod_partition` is exactly the spec's
description: column-split the global adjacency into `P_col` blocks, select
block `rank_col`, row-split it into `P_row` pieces, normalize each piece
with `scale_elements`, and select piece `rank_row`. -/
theorem twodPartition_matches_spec (rank size : ℕ) (edges : List Edge)
    (node_count : ℕ) (normalize : Bool)
    (hsq : procRowSize size = procColSize size) :
    twodPartitionAdj rank size edges node_count normalize =
      specAdjSelect rank size edges node_count normalize := by
  simp only [twodPartitionAdj, specAdjSelect, splitCoo]
  rw [hsq]
  cases h1 : vtxIndicesCore node_count (node_count / procColSize size)
      (procColSize size) with
  | none => simp [h1]
  | some vtx => simp [h1]

/-- C5 witness: a square `2 × 2` grid instance. -/
theorem twodPartition_matches_spec_witness :
    twodPartitionAdj 1 4 [(0, 1), (2, 3)] 4 false =
      specAdjSelect 1 4 [(0, 1), (2, 3)] 4 false :=
  twodPartition_matches_spec 1 4 [(0, 1), (2, 3)] 4 false (by decide)

/-- C5 counterexample: on the non-square `1 × 2` grid (`size = 2`), the
code's first split produces only `P_row = 1` column block, so rank `1`'s
selection of column block `rank_col = 1` fails (Python `IndexError`,
modelled `none`), while the spec's `P_col`-block column split succeeds. -/
theorem twodPartition_nonsquare_cex :
    twodPartitionAdj 1 2 [(0, 0), (1, 1)] 2 false = none ∧
    specAdjSelect 1 2 [(0, 0), (1, 1)] 2 false =
      some ⟨2, 1, [((1, 0), FVal.q 1)]⟩ := by
  exact ⟨rfl, rfl⟩

/-- C6 (amended): for `1 ≤ P_row ≤ N` the boundary list computed as in
`split_coo` from `n_per_proc = N / P_row` is strictly increasing, starts
at `0`, ends at `N`, and has exactly `P_row + 1` entries. -/
theorem vtxBoundaries_invariant (N P_row : ℕ) (h1 : 1 ≤ P_row)
    (h2 : P_row ≤ N) :
    ∃ bs, vtxIndicesCore N (N / P_row) P_row = some bs ∧
      bs.length = P_row + 1 ∧ bs.head? = some 0 ∧ bs.getLast? = some N ∧
      bs.Chain' (· < ·) := by
  have hs : 0 < N / P_row := Nat.div_pos h2 (by omega)
  have hk : P_row ≤ (N + N / P_row - 1) / (N / P_row) := by
    rw [Nat.le_div_iff_mul_le hs]
    have hmul : N / P_row * P_row ≤ N := Nat.div_mul_le_self N P_row
    have hcomm : P_row * (N / P_row) = N / P_row * P_row := Nat.mul_comm _ _
    omega
  have htake : (pyRange0 N (N / P_row)).take P_row =
      List.range' 0 P_row (N / P_row) := by
    unfold pyRange0
    rw [take_range', min_eq_left hk]
  refine ⟨(pyRange0 N (N / P_row)).take P_row ++ [N], ?_, ?_, ?_,
    List.getLast?_concat _, ?_⟩
  · unfold vtxIndicesCore
    rw [if_neg (by omega)]
  · rw [htake, List.length_append, List.length_range']
    rfl
  · rw [htake]
    obtain ⟨m, rfl⟩ : ∃ m, P_row = m + 1 := ⟨P_row - 1, by omega⟩
    rw [List.range'_succ]
    rfl
  · rw [List.chain'_iff_pairwise]
    exact vtx_pairwise N _ P_row hs

/-- C6 witness: `N = 4`, `P_row = 2` gives boundaries `[0, 2, 4]`. -/
theorem vtxBoundaries_invariant_witness :
    ∃ bs, vtxIndicesCore 4 (4 / 2) 2 = some bs ∧
      bs.length = 2 + 1 ∧ bs.head? = some 0 ∧ bs.getLast? = some 4 ∧
      bs.Chain' (· < ·) :=
  vtxBoundaries_invariant 4 2 (by decide) (by decide)

/-- C6 counterexample: for `N = 1`, `P_row = 2` the step
`n_per_proc = N / P_row` is `0` and Python's `range` raises `ValueError`
(modelled `none`), so no boundary list with the claimed invariant is
produced. -/
theorem vtxBoundaries_zero_step_cex :
    ¬ ∃ bs, vtxIndicesCore 1 (1 / 2) 2 = some bs ∧
      bs.length = 2 + 1 ∧ bs.head? = some 0 ∧ bs.getLast? = some 1 ∧
      bs.Chain' (· < ·) := by
  rintro ⟨bs, h, -⟩
  simp [vtxIndicesCore] at h

/-- C7 (amended): for `size = 4` the builder produces row groups
`{0,1}, {2,3}`, column groups `{0,2}, {1,3}`, exactly one non-trivial
transpose group (`{1,2}`, serving both off-diagonal coordinates), and on
any square grid (`P_row = P_col`) the table cell for `(i, j)` with `i < j`
is the pair `{i*P_col + j, j*P_row + i}` (cell `(j, i)` holding `None`),
while diagonal cells hold `None`. -/
theorem getProcGroups_topology (size i j : ℕ)
    (hsq : procRowSize size = procColSize size)
    (hi : i < procRowSize size) (hj : j < procColSize size) :
    (rowGroupsOf 4 = [[0, 1], [2, 3]] ∧ colGroupsOf 4 = [[0, 2], [1, 3]] ∧
      transposeTable 4 = [[none, some [1, 2]], [none, none]] ∧
      getProcGroups 0 4 = some (rowGroupsOf 4, colGroupsOf 4, none) ∧
      getProcGroups 1 4 = some (rowGroupsOf 4, colGroupsOf 4, some [1, 2]) ∧
      getProcGroups 2 4 = some (rowGroupsOf 4, colGroupsOf 4, some [1, 2]) ∧
      getProcGroups 3 4 = some (rowGroupsOf 4, colGroupsOf 4, none)) ∧
    (i < j → transposeCell size i j =
        some [i * procColSize size + j, j * procRowSize size + i] ∧
        transposeCell size j i = none) ∧
    (i = j → transposeCell size i j = none) := by
  refine ⟨⟨by decide, by decide, by decide, by decide, by decide, by decide,
    by decide⟩, ?_, ?_⟩
  · intro hij
    have hj' : j < procRowSize size := by omega
    have hi' : i < procColSize size := by omega
    have hkey : i * procColSize size + j < j * procColSize size + i :=
      mul_add_lt_of_lt hij hj
    constructor
    · rw [transposeCell_eq size i j hi hj, if_pos (by rw [hsq]; exact hkey)]
    · rw [transposeCell_eq size j i hj' hi', if_neg (by rw [hsq]; omega)]
  · intro hij
    subst hij
    rw [transposeCell_eq size i i hi hj, if_neg (by rw [hsq]; omega)]

/-- C7 witness: the square `2 × 2` grid at coordinates `(0, 1)`. -/
theorem getProcGroups_topology_witness :
    (rowGroupsOf 4 = [[0, 1], [2, 3]] ∧ colGroupsOf 4 = [[0, 2], [1, 3]] ∧
      transposeTable 4 = [[none, some [1, 2]], [none, none]] ∧
      getProcGroups 0 4 = some (rowGroupsOf 4, colGroupsOf 4, none) ∧
      getProcGroups 1 4 = some (rowGroupsOf 4, colGroupsOf 4, some [1, 2]) ∧
      getProcGroups 2 4 = some (rowGroupsOf 4, colGroupsOf 4, some [1, 2]) ∧
      getProcGroups 3 4 = some (rowGroupsOf 4, colGroupsOf 4, none)) ∧
    ((0 : ℕ) < 1 → transposeCell 4 0 1 =
        some [0 * procColSize 4 + 1, 1 * procRowSize 4 + 0] ∧
        transposeCell 4 1 0 = none) ∧
    ((0 : ℕ) = 1 → transposeCell 4 0 1 = none) :=
  getProcGroups_topology 4 0 1 (by decide) (by decide) (by decide)

/-- C7 counterexample: on the non-square `3 × 6` grid (`size = 18`), the
coordinates `(1, 2)` and `(2, 1)` are both valid, `1 < 2`, yet neither
table cell holds a group (the claimed pair `{1*6+2, 2*3+1} = {8, 7}` is
never created), and rank `8` (at `(1, 2)`) receives no transpose group. -/
theorem transposeGroups_nonsquare_missing :
    procRowSize 18 = 3 ∧ procColSize 18 = 6 ∧
    transposeCell 18 1 2 = none ∧ transposeCell 18 2 1 = none ∧
    getProcGroups 8 18 = some (rowGroupsOf 18, colGroupsOf 18, none) := by
  decide

/-- C8: in every non-terminal iteration (`i < size - 1`) each process
performs exactly one blocking send to `(rank + 1) % size` and one blocking
receive from `(rank + size - 1) % size` — rank `0` sending before
receiving, every other rank receiving before sending — and the terminal
iteration `i = size - 1` performs no exchange. -/
theorem blockRowComm_schedule (rank size i : ℕ) (hr : rank < size)
    (hi : i < size - 1) :
    (blockRowComm rank size i =
      if rank = 0 then
        [CommEvent.send ((rank + 1) % size),
         CommEvent.recv ((rank + size - 1) % size)]
      else
        [CommEvent.recv ((rank + size - 1) % size),
         CommEvent.send ((rank + 1) % size)]) ∧
    blockRowComm rank size (size - 1) = [] := by
  constructor
  · have hne : ¬ i = size - 1 := by omega
    by_cases h0 : rank = 0
    · subst h0
      have hmod : (0 + size - 1) % size = size - 1 := by
        rw [Nat.zero_add]
        exact Nat.mod_eq_of_lt (by omega)
      simp [blockRowComm, hne, hmod]
    · have hmod : (rank + size - 1) % size = rank - 1 := by
        have hsplit : rank + size - 1 = size + (rank - 1) := by omega
        rw [hsplit, Nat.add_mod_left, Nat.mod_eq_of_lt (by omega)]
      simp [blockRowComm, hne, h0, hmod]
  · simp [blockRowComm]

/-- C8 witness: rank 1 of 3 in iteration 0 receives from 0 then sends to
2; iteration 2 performs no exchange. -/
theorem blockRowComm_schedule_witness :
    (blockRowComm 1 3 0 =
      if (1 : ℕ) = 0 then
        [CommEvent.send ((1 + 1) % 3), CommEvent.recv ((1 + 3 - 1) % 3)]
      else
        [CommEvent.recv ((1 + 3 - 1) % 3), CommEvent.send ((1 + 1) % 3)]) ∧
    blockRowComm 1 3 (3 - 1) = [] :=
  blockRowComm_schedule 1 3 0 (by decide) (by decide)

/-- C9: when the calling rank's grid coordinates fall outside the declared
grid, `get_proc_groups` returns early with no groups at all. -/
theorem getProcGroups_out_of_grid (rank size : ℕ)
    (h : procRowSize size ≤ rank / procColSize size ∨
         procColSize size ≤ rank % procColSize size) :
    getProcGroups rank size = none := by
  simp only [getProcGroups]
  rw [if_pos h]

/-- C9 witness: rank 4 in a `2 × 2` grid (row coordinate 2) is outside
the grid and receives no groups. -/
theorem getProcGroups_out_of_grid_witness : getProcGroups 4 4 = none :=
  getProcGroups_out_of_grid 4 4 (by decide)

/-- C10: with the normalization flag false, `scale_elements` returns its
input partition unchanged. -/
theorem scaleElements_no_normalization (adj_matrix : List Edge)
    (adj_part : SparseT) (node_count row_vtx col_vtx : ℕ) :
    scaleElements adj_matrix adj_part node_count row_vtx col_vtx false =
      adj_part := rfl

end GNNRDM
